import Mathlib

/-!
Verification of the waha-mcp real-time event pipeline and resource cache.

This file gives a shallow embedding, in Lean 4, of the parts of the
repository that carry invariants: the LRU/TTL `ResourceCache`
(src/resources/cache/ResourceCache.ts), the `ResourceManager` read-through
path (src/resources/manager/ResourceManager.ts), the `WebhookServer` HMAC
validation and event dispatch (src/webhooks/server/WebhookServer.ts), and
the `NgrokManager` tunnel lifecycle (src/webhooks/ngrok/NgrokManager.ts).

Modelling conventions:
- A JavaScript `Map` is an association list in insertion order
  (`mapGet`, `mapSet`, `mapDelete`, `mapHas`, `mapKeys` below reproduce the
  `Map` operations, including in-place update on `set` of an existing key).
- `Date.now()` is threaded explicitly as a `now : Nat` argument.
- Mutation of `this` becomes explicit state passing: each method returns
  the updated object (paired with its return value where there is one).
- External collaborators (Node `crypto` HMAC, the ngrok provider) are
  passed in as function arguments / result values, never reimplemented.
-/

namespace Waha

/-! ### JavaScript `Map` model (association list in insertion order) -/

/-- `Map.get`: first binding of the key, if any. -/
def mapGet {β : Type} (m : List (String × β)) (k : String) : Option β :=
  (m.find? (fun p => decide (p.1 = k))).map (fun p => p.2)

/-- `Map.has`. -/
def mapHas {β : Type} (m : List (String × β)) (k : String) : Bool :=
  (mapGet m k).isSome

/-- `Map.set`: updates in place when the key is present (JS `Map` keeps the
original insertion position), otherwise appends. -/
def mapSet {β : Type} (m : List (String × β)) (k : String) (v : β) :
    List (String × β) :=
  if mapHas m k then m.map (fun p => if p.1 = k then (k, v) else p)
  else m ++ [(k, v)]

/-- `Map.delete` (also the semantics of re-filtering an assoc list). -/
def mapDelete {β : Type} (m : List (String × β)) (k : String) :
    List (String × β) :=
  m.filter (fun p => decide (p.1 ≠ k))

/-- The keys, in insertion order. -/
def mapKeys {β : Type} (m : List (String × β)) : List String :=
  m.map (fun p => p.1)

/-! ### ResourceCache (src/resources/cache/ResourceCache.ts) -/

/-- `CacheConfig` from src/resources/types.ts. -/
structure CacheConfig where
  enabled : Bool
  ttlSeconds : Nat
  maxEntries : Nat
deriving DecidableEq, Repr

/-- `CacheEntry<T>` from src/resources/types.ts. -/
structure CacheEntry (α : Type) where
  data : α
  timestamp : Nat
  expiresAt : Nat
deriving DecidableEq, Repr

/-- The `ResourceCache` state: the backing `Map`, the configuration and the
`accessOrder` list used for LRU tracking. -/
structure ResourceCache (α : Type) where
  cache : List (String × CacheEntry α)
  config : CacheConfig
  accessOrder : List String
deriving DecidableEq, Repr

/-- The constructor: empty map, empty access order. -/
def ResourceCache.init {α : Type} (config : CacheConfig) : ResourceCache α :=
  ⟨[], config, []⟩

/-- `delete(key)`: drop from the map and filter out of `accessOrder`. -/
def ResourceCache.delete {α : Type} (c : ResourceCache α) (key : String) :
    ResourceCache α :=
  { c with cache := mapDelete c.cache key,
           accessOrder := c.accessOrder.filter (fun k => decide (k ≠ key)) }

/-- `updateAccessOrder(key)`: remove from its current position, push to the
end (most recently used). -/
def ResourceCache.updateAccessOrder {α : Type} (c : ResourceCache α)
    (key : String) : ResourceCache α :=
  { c with accessOrder := c.accessOrder.filter (fun k => decide (k ≠ key)) ++ [key] }

/-- `get(key)`: `null` when disabled or absent; delete-and-miss when
`Date.now() > entry.expiresAt`; otherwise bump the access order and return
the stored data.  Returns the value paired with the updated cache. -/
def ResourceCache.get {α : Type} (c : ResourceCache α) (key : String)
    (now : Nat) : Option α × ResourceCache α :=
  if c.config.enabled = false then (none, c)
  else
    match mapGet c.cache key with
    | none => (none, c)
    | some entry =>
      if now > entry.expiresAt then (none, c.delete key)
      else (some entry.data, c.updateAccessOrder key)

/-- `evictLRU()`: delete the head of `accessOrder`, if any. -/
def ResourceCache.evictLRU {α : Type} (c : ResourceCache α) : ResourceCache α :=
  match c.accessOrder with
  | [] => c
  | lruKey :: _ => c.delete lruKey

/-- `set(key, data)`: no-op when disabled; evict the LRU entry when at
capacity and the key is new; store with `expiresAt = now + ttlSeconds*1000`
and bump the access order. -/
def ResourceCache.set {α : Type} (c : ResourceCache α) (key : String)
    (data : α) (now : Nat) : ResourceCache α :=
  if c.config.enabled = false then c
  else
    let entry : CacheEntry α := ⟨data, now, now + c.config.ttlSeconds * 1000⟩
    let c1 := if c.cache.length ≥ c.config.maxEntries ∧ mapHas c.cache key = false
              then c.evictLRU else c
    ResourceCache.updateAccessOrder { c1 with cache := mapSet c1.cache key entry } key

/-- `clear()`. -/
def ResourceCache.clear {α : Type} (c : ResourceCache α) : ResourceCache α :=
  { c with cache := [], accessOrder := [] }

/-- `has(key)`: literally `this.get(key) !== null`, including the state
transition performed by `get`. -/
def ResourceCache.has {α : Type} (c : ResourceCache α) (key : String)
    (now : Nat) : Bool × ResourceCache α :=
  let r := c.get key now
  (r.1.isSome, r.2)

/-- `pruneExpired()`: collect the keys whose `expiresAt` has passed, then
delete each of them. -/
def ResourceCache.pruneExpired {α : Type} (c : ResourceCache α) (now : Nat) :
    ResourceCache α :=
  let expiredKeys :=
    (c.cache.filter (fun p => decide (now > p.2.expiresAt))).map (fun p => p.1)
  expiredKeys.foldl (fun acc k => acc.delete k) c

/-- A public cache operation, for stating properties of arbitrary call
sequences. -/
inductive CacheOp (α : Type) where
  | get (key : String) (now : Nat)
  | set (key : String) (data : α) (now : Nat)
  | del (key : String)
  | clear
  | has (key : String) (now : Nat)
  | prune (now : Nat)
deriving Repr

/-- Apply one public operation (discarding the returned value, keeping the
state). -/
def applyOp {α : Type} (c : ResourceCache α) : CacheOp α → ResourceCache α
  | .get key now => (c.get key now).2
  | .set key data now => c.set key data now
  | .del key => c.delete key
  | .clear => c.clear
  | .has key now => (c.has key now).2
  | .prune now => c.pruneExpired now

/-- Run a sequence of public operations. -/
def runOps {α : Type} (c : ResourceCache α) (ops : List (CacheOp α)) :
    ResourceCache α :=
  ops.foldl applyOp c

/-- Internal consistency of a cache state: map keys are distinct,
`accessOrder` is duplicate-free and holds exactly the stored keys. -/
def ResourceCache.WF {α : Type} (c : ResourceCache α) : Prop :=
  (mapKeys c.cache).Nodup ∧ c.accessOrder.Nodup ∧
  (∀ k ∈ c.accessOrder, k ∈ mapKeys c.cache) ∧
  (∀ k ∈ mapKeys c.cache, k ∈ c.accessOrder)

/-! ### ResourceManager (src/resources/manager/ResourceManager.ts) -/

/-- `ResourceMetadata` from src/resources/types.ts. -/
structure ResourceMetadata where
  uri : String
  name : String
  description : String
  mimeType : String
deriving DecidableEq, Repr

/-- `ResourceContent` from src/resources/types.ts (`text` and `blob` are
optional fields). -/
structure ResourceContent where
  uri : String
  mimeType : String
  text : Option String
  blob : Option String
deriving DecidableEq, Repr

/-- A resource producer (`BaseResource` from src/resources/base): metadata,
a URI predicate and a `read` operation.  `read` is abstracted as a pure
function of the URI: concrete producers call the upstream gateway, an
external collaborator. -/
structure BaseResource where
  metadata : ResourceMetadata
  canHandle : String → Bool
  read : String → ResourceContent

/-- The `ResourceManager` state: the registration `Map` keyed by
`metadata.uri`, and the cache. -/
structure ResourceManager where
  resources : List (String × BaseResource)
  cache : ResourceCache ResourceContent

/-- `register(resource)`: `this.resources.set(metadata.uri, resource)`. -/
def ResourceManager.register (m : ResourceManager) (r : BaseResource) :
    ResourceManager :=
  { m with resources := mapSet m.resources r.metadata.uri r }

/-- `listResources()`: metadata of every registered resource, in
registration order. -/
def ResourceManager.listResources (m : ResourceManager) :
    List ResourceMetadata :=
  m.resources.map (fun p => p.2.metadata)

/-- `findResourceForUri(uri)`: first registered resource whose `canHandle`
accepts the URI. -/
def ResourceManager.findResourceForUri (m : ResourceManager) (uri : String) :
    Option BaseResource :=
  (m.resources.map (fun p => p.2)).find? (fun r => r.canHandle uri)

/-- The error thrown by `readResource` when no producer matches; it carries
the request URI and the listed registrations. -/
inductive ReadError where
  | noHandler (uri : String) (available : List ResourceMetadata)
deriving DecidableEq, Repr

/-- The message string of the thrown error, exactly as built in
`readResource`. -/
def ReadError.message : ReadError → String
  | .noHandler uri available =>
    "No resource handler found for URI: " ++ uri ++ "\n" ++
    "Available resources:\n" ++
    String.intercalate "\n" (available.map (fun r => "  - " ++ r.uri))

/-- Result of one `readResource` call: the returned content or thrown
error, the updated manager, and how many producer (`resource.read`)
invocations the call performed. -/
structure ReadOutcome where
  result : Except ReadError ResourceContent
  manager : ResourceManager
  producerCalls : Nat

/-- `readResource(uri)`: check the cache first (the `get` itself may mutate
the cache); on a hit return the cached content; on a miss find the first
matching producer, throw the no-handler error when there is none,
otherwise invoke it, store the result and return it. -/
def ResourceManager.readResource (m : ResourceManager) (uri : String)
    (now : Nat) : ReadOutcome :=
  let r := m.cache.get uri now
  let m1 : ResourceManager := { m with cache := r.2 }
  match r.1 with
  | some cached => ⟨.ok cached, m1, 0⟩
  | none =>
    match m1.findResourceForUri uri with
    | none => ⟨.error (.noHandler uri m1.listResources), m1, 0⟩
    | some resource =>
      let content := resource.read uri
      ⟨.ok content, { m1 with cache := m1.cache.set uri content now }, 1⟩

/-! ### WebhookServer (src/webhooks/server/WebhookServer.ts) -/

/-- `WAHAWebhookPayload`: the parsed request body.  `payload` is opaque
structured data; only `event` and `session` are inspected by the server. -/
structure WAHAWebhookPayload where
  event : String
  session : String
deriving DecidableEq, Repr

/-- `validateHmac(body, signature)`.  Bodies, signatures and digests are
byte lists (`Buffer.from` of the strings involved).  The Node
`crypto.createHmac("sha256", key).update(body).digest("hex")` pipeline is
an external collaborator, abstracted as the argument `hmacHex`; the JS
falsiness checks on the key and the signature (empty string is falsy)
become emptiness checks.  `timingSafeEqual` on equal-length buffers is
content equality. -/
def validateHmac (hmacKey : Option (List Nat))
    (hmacHex : List Nat → List Nat → List Nat)
    (body : List Nat) (signature : Option (List Nat)) : Bool :=
  match hmacKey, signature with
  | some key, some sig =>
    if key = [] ∨ sig = [] then false
    else
      let expectedHmac := hmacHex key body
      if expectedHmac.length ≠ sig.length then false
      else decide (expectedHmac = sig)
  | _, _ => false

/-- A registered event handler.  The callback is abstracted as a function
returning `Except` (`error` models a thrown/rejected handler); `id` names
the handler so that invocations can be counted. -/
structure WebhookEventHandler where
  id : Nat
  run : WAHAWebhookPayload → Except String Unit

/-- The observable outcome of running one handler under the per-handler
try/catch of `dispatchEvent`. -/
structure HandlerOutcome where
  handlerId : Nat
  ok : Bool
deriving DecidableEq, Repr

/-- One handler invocation with its failure caught (and only logged). -/
def runHandlerCaught (h : WebhookEventHandler) (p : WAHAWebhookPayload) :
    HandlerOutcome :=
  match h.run p with
  | .ok _ => ⟨h.id, true⟩
  | .error _ => ⟨h.id, false⟩

/-- `dispatchEvent(payload)`: event-specific handlers followed by wildcard
handlers; when none match, log and return; otherwise run every handler
(each wrapped in its own try/catch) and wait for all of them.  The
returned list has one outcome per registered handler, in order.  The
`Promise.all` fan-out is modelled as the total `map`: the dispatcher only
returns once every handler has settled. -/
def dispatchEvent (eventHandlers : List (String × List WebhookEventHandler))
    (payload : WAHAWebhookPayload) : List HandlerOutcome :=
  let specificHandlers := (mapGet eventHandlers payload.event).getD []
  let wildcardHandlers := (mapGet eventHandlers "*").getD []
  let allHandlers := specificHandlers ++ wildcardHandlers
  if allHandlers.isEmpty then []
  else allHandlers.map (fun h => runHandlerCaught h payload)

/-- The HTTP response of the `POST /webhook` route. -/
inductive WebhookResponse where
  | ok (received : String)
  | unauthorized
  | badRequest
deriving DecidableEq, Repr

/-- The observable effect of one `POST /webhook` request: the response,
whether `dispatchEvent` ran, and the per-handler outcomes. -/
structure WebhookResult where
  response : WebhookResponse
  dispatched : Bool
  outcomes : List HandlerOutcome
deriving DecidableEq, Repr

/-- The body-validation and dispatch tail of the route: `!payload` or
`!payload.event` (empty event string is falsy) gives 400 without
dispatching; otherwise dispatch is awaited and 200 is sent. -/
def handleValidatedBody (body : Option WAHAWebhookPayload)
    (eventHandlers : List (String × List WebhookEventHandler)) :
    WebhookResult :=
  match body with
  | none => ⟨.badRequest, false, []⟩
  | some payload =>
    if payload.event = "" then ⟨.badRequest, false, []⟩
    else ⟨.ok payload.event, true, dispatchEvent eventHandlers payload⟩

/-- The `POST /webhook` route: when an HMAC key is configured (JS truthy:
non-empty), a failed `validateHmac` answers 401 and nothing is
dispatched; then the body is validated and dispatched. -/
def webhookPost (hmacKey : Option (List Nat))
    (hmacHex : List Nat → List Nat → List Nat)
    (rawBody : List Nat) (signatureHeader : Option (List Nat))
    (body : Option WAHAWebhookPayload)
    (eventHandlers : List (String × List WebhookEventHandler)) :
    WebhookResult :=
  match hmacKey with
  | some key =>
    if key ≠ [] then
      if validateHmac (some key) hmacHex rawBody signatureHeader then
        handleValidatedBody body eventHandlers
      else ⟨.unauthorized, false, []⟩
    else handleValidatedBody body eventHandlers
  | none => handleValidatedBody body eventHandlers

/-- A single-bit mutation of a byte string: flip bit `b` of byte `i`. -/
def flipBit (l : List Nat) (i : Nat) (b : Nat) : List Nat :=
  l.set i (l.getD i 0 ^^^ (1 <<< b))

/-! ### NgrokManager (src/webhooks/ngrok/NgrokManager.ts) -/

/-- The listener object returned by `ngrok.forward`; `url` models the
`listener.url()` result (`none` for `null`). -/
structure NgrokListener where
  handle : Nat
  url : Option String
deriving DecidableEq, Repr

/-- The `NgrokManager` state. -/
structure NgrokManager where
  listener : Option NgrokListener
  publicUrl : Option String
  port : Nat
  authToken : Option String
deriving DecidableEq, Repr

/-- `isActive()`. -/
def NgrokManager.isActive (m : NgrokManager) : Bool :=
  m.listener.isSome && m.publicUrl.isSome

/-- `getPublicUrl()`. -/
def NgrokManager.getPublicUrl (m : NgrokManager) : Option String :=
  m.publicUrl

/-- `start()`.  The `ngrok.forward` call is an external provider,
abstracted as its outcome `forwardResult`.  Mirrors the source exactly:
no check of an already-active tunnel is performed; `this.listener` is
assigned before `url()` is inspected; a falsy URL (null or empty) throws,
re-wrapped by the catch block.  Returns the thrown/returned value paired
with the updated manager state. -/
def NgrokManager.start (m : NgrokManager)
    (forwardResult : Except String NgrokListener) :
    Except String String × NgrokManager :=
  match forwardResult with
  | .error e => (.error ("Failed to start ngrok tunnel: " ++ e), m)
  | .ok listener =>
    let m1 := { m with listener := some listener }
    match listener.url with
    | none =>
      (.error "Failed to start ngrok tunnel: Failed to get ngrok URL", m1)
    | some url =>
      if url = "" then
        (.error "Failed to start ngrok tunnel: Failed to get ngrok URL", m1)
      else (.ok url, { m1 with publicUrl := some url })

/-! ### Concrete states used by witnesses and counterexamples -/

/-- A concrete full two-entry cache for the C3 witness. -/
def c3w : ResourceCache Nat :=
  ⟨[("a", ⟨1, 0, 60000⟩), ("b", ⟨2, 0, 60000⟩)], ⟨true, 60, 2⟩, ["a", "b"]⟩

/-- A concrete cache with a single entry expiring at time 100. -/
def c4cex : ResourceCache Nat :=
  ⟨[("k", ⟨7, 0, 100⟩)], ⟨true, 1, 10⟩, ["k"]⟩

/-- A concrete cache for the C4 witness. -/
def c4w : ResourceCache Nat :=
  ⟨[("k", ⟨7, 0, 100⟩)], ⟨true, 1, 10⟩, ["k"]⟩

/-- A cache holding one fresh entry, for the C10 witness. -/
def c10w : ResourceCache Nat :=
  ⟨[("k", ⟨3, 0, 100⟩)], ⟨true, 1, 10⟩, ["k"]⟩

/-- A cache holding one already-expired entry. -/
def c10stale : ResourceCache Nat :=
  ⟨[("s", ⟨1, 0, 0⟩)], ⟨true, 1, 10⟩, ["s"]⟩

/-- A concrete producer matching exactly one URI, for the C5 witness. -/
def demoResource : BaseResource :=
  ⟨⟨"waha://chats/overview", "WhatsApp Chats Overview",
    "Overview of recent WhatsApp chats", "text/plain"⟩,
   fun uri => decide (uri = "waha://chats/overview"),
   fun uri => ⟨uri, "text/plain", some "chats", none⟩⟩

/-- A concrete manager with one registered producer and an empty cache. -/
def demoManager : ResourceManager :=
  ⟨[("waha://chats/overview", demoResource)],
   ResourceCache.init ⟨true, 300, 100⟩⟩

/-- Concrete handlers for the C2 witness: one succeeds, one throws. -/
def h1demo : WebhookEventHandler := ⟨1, fun _ => .ok ()⟩

/-- A handler that always throws. -/
def h2demo : WebhookEventHandler := ⟨2, fun _ => .error "handler exploded"⟩

/-- The demo handler registry: two handlers on the message event. -/
def demoHandlers : List (String × List WebhookEventHandler) :=
  [("message", [h1demo, h2demo])]

/-- The demo payload. -/
def demoPayload : WAHAWebhookPayload := ⟨"message", "default"⟩

/-- An active tunnel manager state. -/
def ngrokActive : NgrokManager :=
  ⟨some ⟨1, some "https://one.example"⟩, some "https://one.example",
   3000, none⟩

/-! ### Lemmas about the `Map` model -/

theorem mapGet_nil {β : Type} (k : String) :
    mapGet ([] : List (String × β)) k = none := rfl

theorem mapGet_cons {β : Type} (p : String × β) (m : List (String × β))
    (k : String) :
    mapGet (p :: m) k = if p.1 = k then some p.2 else mapGet m k := by
  by_cases h : p.1 = k <;> simp [mapGet, List.find?_cons, h]

theorem mapKeys_nil {β : Type} : mapKeys ([] : List (String × β)) = [] := rfl

theorem mapKeys_cons {β : Type} (p : String × β) (m : List (String × β)) :
    mapKeys (p :: m) = p.1 :: mapKeys m := rfl

theorem mapKeys_append {β : Type} (m m' : List (String × β)) :
    mapKeys (m ++ m') = mapKeys m ++ mapKeys m' := by
  simp [mapKeys]

theorem mapHas_iff {β : Type} (m : List (String × β)) (k : String) :
    mapHas m k = true ↔ k ∈ mapKeys m := by
  induction m with
  | nil => simp [mapHas, mapGet_nil, mapKeys_nil]
  | cons p m ih =>
    by_cases h : p.1 = k
    · simp [mapHas, mapGet_cons, h, mapKeys_cons]
    · rw [mapHas, mapGet_cons, if_neg h,
        show (mapGet m k).isSome = mapHas m k from rfl]
      simp [ih, mapKeys_cons, eq_comm (a := k), h]

theorem mapHas_eq_false_iff {β : Type} (m : List (String × β)) (k : String) :
    mapHas m k = false ↔ k ∉ mapKeys m := by
  rw [← mapHas_iff]
  cases mapHas m k <;> simp

theorem mapGet_eq_none_iff {β : Type} (m : List (String × β)) (k : String) :
    mapGet m k = none ↔ k ∉ mapKeys m := by
  rw [← mapHas_eq_false_iff]
  cases h : mapGet m k <;> simp [mapHas, h]

theorem mapGet_isSome_iff {β : Type} (m : List (String × β)) (k : String) :
    (mapGet m k).isSome = true ↔ k ∈ mapKeys m := by
  rw [← mapHas_iff, mapHas]

theorem mapKeys_updateInPlace {β : Type} (m : List (String × β)) (k : String)
    (v : β) :
    mapKeys (m.map (fun p => if p.1 = k then (k, v) else p)) = mapKeys m := by
  simp only [mapKeys]
  induction m with
  | nil => rfl
  | cons p m ih =>
    by_cases hp : p.1 = k <;> simp [hp, ih]

theorem mapGet_updateInPlace_self {β : Type} (m : List (String × β))
    (k : String) (v : β) (h : k ∈ mapKeys m) :
    mapGet (m.map (fun p => if p.1 = k then (k, v) else p)) k = some v := by
  induction m with
  | nil => simp [mapKeys_nil] at h
  | cons p m ih =>
    by_cases hp : p.1 = k
    · simp only [List.map_cons, if_pos hp]
      rw [mapGet_cons]
      simp
    · have h' : k ∈ mapKeys m := by
        rcases (by simpa [mapKeys_cons] using h : k = p.1 ∨ k ∈ mapKeys m) with
          h1 | h1
        · exact absurd h1.symm hp
        · exact h1
      simp only [List.map_cons, if_neg hp]
      rw [mapGet_cons, if_neg hp]
      exact ih h'

theorem mapGet_updateInPlace_ne {β : Type} (m : List (String × β))
    (k k' : String) (v : β) (h : k' ≠ k) :
    mapGet (m.map (fun p => if p.1 = k then (k, v) else p)) k' =
      mapGet m k' := by
  induction m with
  | nil => rfl
  | cons p m ih =>
    by_cases hp : p.1 = k
    · simp only [List.map_cons, if_pos hp]
      rw [mapGet_cons, mapGet_cons, if_neg (fun hh => h (Eq.symm hh)),
        if_neg (fun hh => h (hp.symm.trans hh).symm)]
      exact ih
    · simp only [List.map_cons, if_neg hp]
      rw [mapGet_cons, mapGet_cons]
      by_cases hq : p.1 = k' <;> simp [hq, ih]

theorem mapGet_append_new {β : Type} (m : List (String × β)) (k : String)
    (v : β) (h : k ∉ mapKeys m) : mapGet (m ++ [(k, v)]) k = some v := by
  induction m with
  | nil =>
    rw [List.nil_append, mapGet_cons]
    simp
  | cons p m ih =>
    have hp : p.1 ≠ k := fun hpk => h (by simp [mapKeys_cons, hpk])
    have h' : k ∉ mapKeys m := fun hm => h (by simp [mapKeys_cons, hm])
    rw [List.cons_append, mapGet_cons, if_neg hp]
    exact ih h'

theorem mapGet_append_ne {β : Type} (m : List (String × β)) (k k' : String)
    (v : β) (h : k' ≠ k) : mapGet (m ++ [(k, v)]) k' = mapGet m k' := by
  induction m with
  | nil =>
    rw [List.nil_append, mapGet_cons, if_neg (fun hh => h (Eq.symm hh))]
  | cons p m ih =>
    rw [List.cons_append, mapGet_cons, mapGet_cons]
    by_cases hq : p.1 = k' <;> simp [hq, ih]

theorem mapKeys_mapSet {β : Type} (m : List (String × β)) (k : String)
    (v : β) :
    mapKeys (mapSet m k v) =
      if k ∈ mapKeys m then mapKeys m else mapKeys m ++ [k] := by
  by_cases h : k ∈ mapKeys m
  · rw [mapSet, if_pos ((mapHas_iff m k).mpr h), if_pos h,
      mapKeys_updateInPlace]
  · rw [mapSet, if_neg (by simp [mapHas_iff, h]), if_neg h, mapKeys_append]
    rfl

theorem length_mapSet {β : Type} (m : List (String × β)) (k : String)
    (v : β) :
    (mapSet m k v).length =
      if k ∈ mapKeys m then m.length else m.length + 1 := by
  by_cases h : k ∈ mapKeys m
  · rw [mapSet, if_pos ((mapHas_iff m k).mpr h), if_pos h, List.length_map]
  · rw [mapSet, if_neg (by simp [mapHas_iff, h]), if_neg h,
      List.length_append, List.length_singleton]

theorem mapGet_mapSet_self {β : Type} (m : List (String × β)) (k : String)
    (v : β) : mapGet (mapSet m k v) k = some v := by
  by_cases h : mapHas m k = true
  · rw [mapSet, if_pos h]
    exact mapGet_updateInPlace_self m k v ((mapHas_iff m k).mp h)
  · rw [mapSet, if_neg h]
    exact mapGet_append_new m k v
      ((mapHas_eq_false_iff m k).mp (by simpa using h))

theorem mapGet_mapSet_ne {β : Type} (m : List (String × β)) (k k' : String)
    (v : β) (h : k' ≠ k) : mapGet (mapSet m k v) k' = mapGet m k' := by
  by_cases hk : mapHas m k = true
  · rw [mapSet, if_pos hk]
    exact mapGet_updateInPlace_ne m k k' v h
  · rw [mapSet, if_neg hk]
    exact mapGet_append_ne m k k' v h

theorem mapKeys_mapDelete {β : Type} (m : List (String × β)) (k : String) :
    mapKeys (mapDelete m k) = (mapKeys m).filter (fun x => decide (x ≠ k)) := by
  simp only [mapDelete, mapKeys]
  induction m with
  | nil => rfl
  | cons p m ih =>
    by_cases hp : p.1 = k
    · simp only [List.filter_cons, List.map_cons]
      rw [if_neg (by simp [hp]), if_neg (by simp [hp])]
      exact ih
    · simp only [List.filter_cons, List.map_cons]
      rw [if_pos (by simp [hp]), if_pos (by simp [hp]), List.map_cons, ih]

theorem mapGet_mapDelete_self {β : Type} (m : List (String × β)) (k : String) :
    mapGet (mapDelete m k) k = none := by
  rw [mapGet_eq_none_iff, mapKeys_mapDelete]
  simp

theorem mapGet_mapDelete_ne {β : Type} (m : List (String × β)) (k k' : String)
    (h : k' ≠ k) : mapGet (mapDelete m k) k' = mapGet m k' := by
  induction m with
  | nil => rfl
  | cons p m ih =>
    rw [mapDelete, List.filter_cons] at *
    by_cases hp : p.1 = k
    · rw [if_neg (by simp [hp]), ih, mapGet_cons, if_neg (hp ▸ Ne.symm h)]
    · rw [if_pos (by simp [hp]), mapGet_cons, mapGet_cons]
      by_cases hq : p.1 = k'
      · simp [hq]
      · rw [if_neg hq, if_neg hq]
        exact ih

theorem length_mapDelete_le {β : Type} (m : List (String × β)) (k : String) :
    (mapDelete m k).length ≤ m.length :=
  List.length_filter_le _ m

theorem mem_mapKeys_mapSet {β : Type} (m : List (String × β))
    (k key : String) (v : β) :
    k ∈ mapKeys (mapSet m key v) ↔ k ∈ mapKeys m ∨ k = key := by
  rw [mapKeys_mapSet]
  by_cases h : key ∈ mapKeys m
  · rw [if_pos h]
    constructor
    · exact Or.inl
    · rintro (hk | rfl)
      · exact hk
      · exact h
  · rw [if_neg h]
    simp [List.mem_append]

theorem length_mapDelete_of_mem {β : Type} (m : List (String × β))
    (k : String) (hnd : (mapKeys m).Nodup) (hk : k ∈ mapKeys m) :
    (mapDelete m k).length + 1 = m.length := by
  have h1 : (mapDelete m k).length = (mapKeys (mapDelete m k)).length := by
    simp [mapKeys]
  have h2 : m.length = (mapKeys m).length := by simp [mapKeys]
  have h3 : (mapKeys m).erase k = (mapKeys m).filter (fun x => decide (x ≠ k)) := by
    rw [hnd.erase_eq_filter k]
    apply List.filter_congr
    intro x _
    by_cases hx : x = k <;> simp [hx]
  have h4 : ((mapKeys m).erase k).length + 1 = (mapKeys m).length := by
    rw [List.length_erase_of_mem hk]
    have : 0 < (mapKeys m).length := List.length_pos_of_mem hk
    omega
  rw [h1, h2, mapKeys_mapDelete, ← h3, h4]


/-! ### Lemmas about the cache operations -/

theorem cache_delete {α : Type} (c : ResourceCache α) (key : String) :
    (c.delete key).cache = mapDelete c.cache key := rfl

theorem accessOrder_delete {α : Type} (c : ResourceCache α) (key : String) :
    (c.delete key).accessOrder =
      c.accessOrder.filter (fun k => decide (k ≠ key)) := rfl

theorem config_delete {α : Type} (c : ResourceCache α) (key : String) :
    (c.delete key).config = c.config := rfl

theorem cache_updateAccessOrder {α : Type} (c : ResourceCache α)
    (key : String) : (c.updateAccessOrder key).cache = c.cache := rfl

theorem accessOrder_updateAccessOrder {α : Type} (c : ResourceCache α)
    (key : String) :
    (c.updateAccessOrder key).accessOrder =
      c.accessOrder.filter (fun k => decide (k ≠ key)) ++ [key] := rfl

theorem config_updateAccessOrder {α : Type} (c : ResourceCache α)
    (key : String) : (c.updateAccessOrder key).config = c.config := rfl

theorem config_evictLRU {α : Type} (c : ResourceCache α) :
    (c.evictLRU).config = c.config := by
  rw [ResourceCache.evictLRU]
  split <;> rfl

theorem evictLRU_of_nil {α : Type} (c : ResourceCache α)
    (h : c.accessOrder = []) : c.evictLRU = c := by
  rw [ResourceCache.evictLRU, h]

theorem evictLRU_of_cons {α : Type} (c : ResourceCache α) (lru : String)
    (rest : List String) (h : c.accessOrder = lru :: rest) :
    c.evictLRU = c.delete lru := by
  rw [ResourceCache.evictLRU, h]

theorem get_of_disabled {α : Type} (c : ResourceCache α) (key : String)
    (now : Nat) (he : c.config.enabled = false) :
    c.get key now = (none, c) := by
  rw [ResourceCache.get, if_pos he]

theorem get_of_not_mem {α : Type} (c : ResourceCache α) (key : String)
    (now : Nat) (h : mapGet c.cache key = none) :
    c.get key now = (none, c) := by
  rw [ResourceCache.get]
  by_cases he : c.config.enabled = false <;> simp [he, h]

theorem get_of_expired {α : Type} (c : ResourceCache α) (key : String)
    (now : Nat) (entry : CacheEntry α) (he : c.config.enabled = true)
    (h : mapGet c.cache key = some entry) (hx : now > entry.expiresAt) :
    c.get key now = (none, c.delete key) := by
  rw [ResourceCache.get, if_neg (by simp [he]), h]
  simp [hx]

theorem get_of_fresh {α : Type} (c : ResourceCache α) (key : String)
    (now : Nat) (entry : CacheEntry α) (he : c.config.enabled = true)
    (h : mapGet c.cache key = some entry) (hx : ¬ now > entry.expiresAt) :
    c.get key now = (some entry.data, c.updateAccessOrder key) := by
  rw [ResourceCache.get, if_neg (by simp [he]), h]
  simp [hx]

theorem set_of_disabled {α : Type} (c : ResourceCache α) (key : String)
    (data : α) (now : Nat) (he : c.config.enabled = false) :
    c.set key data now = c := by
  rw [ResourceCache.set, if_pos he]

theorem set_of_enabled {α : Type} (c : ResourceCache α) (key : String)
    (data : α) (now : Nat) (he : c.config.enabled = true) :
    c.set key data now =
      ResourceCache.updateAccessOrder
        { (if c.cache.length ≥ c.config.maxEntries ∧ mapHas c.cache key = false
           then c.evictLRU else c) with
          cache :=
            mapSet (if c.cache.length ≥ c.config.maxEntries ∧
                       mapHas c.cache key = false
                    then c.evictLRU else c).cache key
              ⟨data, now, now + c.config.ttlSeconds * 1000⟩ } key := by
  rw [ResourceCache.set, if_neg (by simp [he])]

theorem config_set {α : Type} (c : ResourceCache α) (key : String) (data : α)
    (now : Nat) : (c.set key data now).config = c.config := by
  by_cases he : c.config.enabled = false
  · rw [set_of_disabled c key data now he]
  · rw [set_of_enabled c key data now (by simpa using he),
      config_updateAccessOrder]
    by_cases hc : c.cache.length ≥ c.config.maxEntries ∧
        mapHas c.cache key = false
    · simp only [if_pos hc]
      exact config_evictLRU c
    · simp only [if_neg hc]

theorem config_get {α : Type} (c : ResourceCache α) (key : String)
    (now : Nat) : ((c.get key now).2).config = c.config := by
  by_cases he : c.config.enabled = false
  · rw [get_of_disabled c key now he]
  · cases h : mapGet c.cache key with
    | none => rw [get_of_not_mem c key now h]
    | some entry =>
      by_cases hx : now > entry.expiresAt
      · rw [get_of_expired c key now entry (by simpa using he) h hx]
        rfl
      · rw [get_of_fresh c key now entry (by simpa using he) h hx]
        rfl

/-- Characterization of folding `delete` over a list of keys: the map and
the access order are filtered by non-membership, the config is kept. -/
theorem foldl_delete_spec {α : Type} (ks : List String) (c : ResourceCache α) :
    (ks.foldl (fun acc k => acc.delete k) c).cache
        = c.cache.filter (fun p => decide (p.1 ∉ ks)) ∧
    (ks.foldl (fun acc k => acc.delete k) c).accessOrder
        = c.accessOrder.filter (fun k => decide (k ∉ ks)) ∧
    (ks.foldl (fun acc k => acc.delete k) c).config = c.config := by
  induction ks generalizing c with
  | nil => simp
  | cons k ks ih =>
    obtain ⟨ih1, ih2, ih3⟩ := ih (c.delete k)
    rw [List.foldl_cons]
    refine ⟨?_, ?_, ?_⟩
    · rw [ih1, cache_delete, mapDelete, List.filter_filter]
      apply List.filter_congr
      intro p _
      by_cases h1 : p.1 = k <;> by_cases h2 : p.1 ∈ ks <;>
        simp [h1, h2, List.mem_cons]
    · rw [ih2, accessOrder_delete, List.filter_filter]
      apply List.filter_congr
      intro x _
      by_cases h1 : x = k <;> by_cases h2 : x ∈ ks <;>
        simp [h1, h2, List.mem_cons]
    · rw [ih3, config_delete]


/-! ### Well-formedness preservation -/

theorem WF_init {α : Type} (cfg : CacheConfig) :
    (ResourceCache.init cfg : ResourceCache α).WF := by
  refine ⟨List.nodup_nil, List.nodup_nil, ?_, ?_⟩ <;> intro k hk <;>
    simp [ResourceCache.init, mapKeys_nil] at hk

theorem WF_delete {α : Type} {c : ResourceCache α} (h : c.WF) (key : String) :
    (c.delete key).WF := by
  obtain ⟨h1, h2, h3, h4⟩ := h
  refine ⟨?_, ?_, ?_, ?_⟩
  · rw [cache_delete, mapKeys_mapDelete]
    exact h1.filter _
  · rw [accessOrder_delete]
    exact h2.filter _
  · intro k hk
    rw [accessOrder_delete, List.mem_filter] at hk
    rw [cache_delete, mapKeys_mapDelete, List.mem_filter]
    exact ⟨h3 k hk.1, hk.2⟩
  · intro k hk
    rw [cache_delete, mapKeys_mapDelete, List.mem_filter] at hk
    rw [accessOrder_delete, List.mem_filter]
    exact ⟨h4 k hk.1, hk.2⟩

theorem WF_updateAccessOrder {α : Type} {c : ResourceCache α} (h : c.WF)
    (key : String) (hkey : key ∈ mapKeys c.cache) :
    (c.updateAccessOrder key).WF := by
  obtain ⟨h1, h2, h3, h4⟩ := h
  refine ⟨h1, ?_, ?_, ?_⟩
  · rw [accessOrder_updateAccessOrder]
    refine (h2.filter _).append (List.nodup_singleton key) ?_
    intro a ha hb
    rw [List.mem_filter] at ha
    rw [List.mem_singleton] at hb
    have ha2 : a ≠ key := by simpa using ha.2
    exact ha2 hb
  · intro k hk
    rw [accessOrder_updateAccessOrder, List.mem_append] at hk
    rcases hk with hk | hk
    · rw [List.mem_filter] at hk
      exact h3 k hk.1
    · rw [List.mem_singleton] at hk
      exact hk ▸ hkey
  · intro k hk
    rw [accessOrder_updateAccessOrder, List.mem_append]
    by_cases hkk : k = key
    · right
      rw [List.mem_singleton]
      exact hkk
    · left
      rw [List.mem_filter]
      exact ⟨h4 k hk, by simpa using hkk⟩

theorem WF_evictLRU {α : Type} {c : ResourceCache α} (h : c.WF) :
    (c.evictLRU).WF := by
  cases hao : c.accessOrder with
  | nil => rw [evictLRU_of_nil c hao]; exact h
  | cons lru rest => rw [evictLRU_of_cons c lru rest hao]; exact WF_delete h lru

theorem WF_get {α : Type} {c : ResourceCache α} (h : c.WF) (key : String)
    (now : Nat) : ((c.get key now).2).WF := by
  by_cases he : c.config.enabled = false
  · rw [get_of_disabled c key now he]
    exact h
  · cases hm : mapGet c.cache key with
    | none =>
      rw [get_of_not_mem c key now hm]
      exact h
    | some entry =>
      by_cases hx : now > entry.expiresAt
      · rw [get_of_expired c key now entry (by simpa using he) hm hx]
        exact WF_delete h key
      · rw [get_of_fresh c key now entry (by simpa using he) hm hx]
        refine WF_updateAccessOrder h key ?_
        rw [← mapGet_isSome_iff, hm]
        rfl

theorem WF_set {α : Type} {c : ResourceCache α} (h : c.WF) (key : String)
    (data : α) (now : Nat) : (c.set key data now).WF := by
  by_cases he : c.config.enabled = false
  · rw [set_of_disabled c key data now he]
    exact h
  · rw [set_of_enabled c key data now (by simpa using he)]
    set c1 := if c.cache.length ≥ c.config.maxEntries ∧ mapHas c.cache key = false
              then c.evictLRU else c with hc1
    have hwf1 : c1.WF := by
      rw [hc1]
      split
      · exact WF_evictLRU h
      · exact h
    obtain ⟨g1, g2, g3, g4⟩ := hwf1
    set entry : CacheEntry α := ⟨data, now, now + c.config.ttlSeconds * 1000⟩
    set mid : ResourceCache α := { c1 with cache := mapSet c1.cache key entry }
      with hmid
    have hmidkeys : ∀ k, k ∈ mapKeys mid.cache ↔ k ∈ mapKeys c1.cache ∨ k = key := by
      intro k
      rw [hmid]
      exact mem_mapKeys_mapSet c1.cache k key entry
    refine ⟨?_, ?_, ?_, ?_⟩
    · rw [cache_updateAccessOrder, hmid]
      show (mapKeys (mapSet c1.cache key entry)).Nodup
      rw [mapKeys_mapSet]
      by_cases hk : key ∈ mapKeys c1.cache
      · rw [if_pos hk]
        exact g1
      · rw [if_neg hk]
        refine g1.append (List.nodup_singleton key) ?_
        intro a ha hb
        rw [List.mem_singleton] at hb
        exact hk (hb ▸ ha)
    · rw [accessOrder_updateAccessOrder]
      refine (g2.filter _).append (List.nodup_singleton key) ?_
      intro a ha hb
      rw [List.mem_filter] at ha
      rw [List.mem_singleton] at hb
      have ha2 : a ≠ key := by simpa using ha.2
      exact ha2 hb
    · intro k hk
      rw [accessOrder_updateAccessOrder, List.mem_append] at hk
      rw [cache_updateAccessOrder, hmidkeys]
      rcases hk with hk | hk
      · rw [List.mem_filter] at hk
        exact Or.inl (g3 k hk.1)
      · rw [List.mem_singleton] at hk
        exact Or.inr hk
    · intro k hk
      rw [cache_updateAccessOrder, hmidkeys] at hk
      rw [accessOrder_updateAccessOrder, List.mem_append]
      by_cases hkk : k = key
      · right
        rw [List.mem_singleton]
        exact hkk
      · left
        rw [List.mem_filter]
        rcases hk with hk | hk
        · exact ⟨g4 k hk, by simpa using hkk⟩
        · exact absurd hk hkk

theorem WF_clear {α : Type} {c : ResourceCache α} :
    (c.clear).WF := by
  refine ⟨List.nodup_nil, List.nodup_nil, ?_, ?_⟩ <;> intro k hk <;>
    simp [ResourceCache.clear, mapKeys_nil] at hk

theorem WF_has {α : Type} {c : ResourceCache α} (h : c.WF) (key : String)
    (now : Nat) : ((c.has key now).2).WF := WF_get h key now

theorem WF_foldl_delete {α : Type} {c : ResourceCache α} (h : c.WF)
    (ks : List String) : (ks.foldl (fun acc k => acc.delete k) c).WF := by
  induction ks generalizing c with
  | nil => exact h
  | cons k ks ih =>
    rw [List.foldl_cons]
    exact ih (WF_delete h k)

theorem WF_pruneExpired {α : Type} {c : ResourceCache α} (h : c.WF)
    (now : Nat) : (c.pruneExpired now).WF :=
  WF_foldl_delete h _

theorem WF_applyOp {α : Type} {c : ResourceCache α} (h : c.WF)
    (op : CacheOp α) : (applyOp c op).WF := by
  cases op with
  | get key now => exact WF_get h key now
  | set key data now => exact WF_set h key data now
  | del key => exact WF_delete h key
  | clear => exact WF_clear
  | has key now => exact WF_has h key now
  | prune now => exact WF_pruneExpired h now

theorem WF_runOps {α : Type} {c : ResourceCache α} (h : c.WF)
    (ops : List (CacheOp α)) : (runOps c ops).WF := by
  induction ops generalizing c with
  | nil => exact h
  | cons op ops ih =>
    rw [runOps, List.foldl_cons]
    exact ih (WF_applyOp h op)


/-! ### Size bounds -/

theorem mapKeys_length {β : Type} (m : List (String × β)) :
    (mapKeys m).length = m.length := by
  simp [mapKeys]

theorem length_cache_delete_le {α : Type} (c : ResourceCache α)
    (key : String) : (c.delete key).cache.length ≤ c.cache.length := by
  rw [cache_delete, mapDelete]
  exact List.length_filter_le _ _

theorem length_cache_get_le {α : Type} (c : ResourceCache α) (key : String)
    (now : Nat) : ((c.get key now).2).cache.length ≤ c.cache.length := by
  by_cases he : c.config.enabled = false
  · rw [get_of_disabled c key now he]
  · cases hm : mapGet c.cache key with
    | none => rw [get_of_not_mem c key now hm]
    | some entry =>
      by_cases hx : now > entry.expiresAt
      · rw [get_of_expired c key now entry (by simpa using he) hm hx]
        exact length_cache_delete_le c key
      · rw [get_of_fresh c key now entry (by simpa using he) hm hx]
        exact le_rfl

theorem not_mem_of_mapHas_false {β : Type} {m : List (String × β)}
    {k : String} (h : mapHas m k = false) : k ∉ mapKeys m :=
  (mapHas_eq_false_iff m k).mp h

theorem length_cache_set_le {α : Type} {c : ResourceCache α} (hwf : c.WF)
    (hpos : 0 < c.config.maxEntries)
    (hle : c.cache.length ≤ c.config.maxEntries)
    (key : String) (data : α) (now : Nat) :
    (c.set key data now).cache.length ≤ c.config.maxEntries := by
  by_cases he : c.config.enabled = false
  · rw [set_of_disabled c key data now he]
    exact hle
  · rw [set_of_enabled c key data now (by simpa using he),
      cache_updateAccessOrder]
    by_cases hc : c.cache.length ≥ c.config.maxEntries ∧
        mapHas c.cache key = false
    · rw [if_pos hc]
      obtain ⟨hfull, hnew⟩ := hc
      have hlen : c.cache.length = c.config.maxEntries := le_antisymm hle hfull
      have hkpos : 0 < (mapKeys c.cache).length := by
        rw [mapKeys_length, hlen]
        exact hpos
      obtain ⟨k0, hk0⟩ := List.exists_mem_of_length_pos hkpos
      have hk0ao : k0 ∈ c.accessOrder := hwf.2.2.2 k0 hk0
      cases hao : c.accessOrder with
      | nil =>
        rw [hao] at hk0ao
        simp at hk0ao
      | cons lru rest =>
        rw [evictLRU_of_cons c lru rest hao]
        have hlru : lru ∈ mapKeys c.cache :=
          hwf.2.2.1 lru (by rw [hao]; exact List.mem_cons_self lru rest)
        have hnewdel : key ∉ mapKeys (c.delete lru).cache := by
          rw [cache_delete, mapKeys_mapDelete]
          intro hmem
          exact not_mem_of_mapHas_false hnew (List.mem_of_mem_filter hmem)
        rw [length_mapSet, if_neg hnewdel, cache_delete]
        have := length_mapDelete_of_mem c.cache lru hwf.1 hlru
        omega
    · rw [if_neg hc]
      by_cases hkey : mapHas c.cache key = false
      · have hlt : ¬ c.cache.length ≥ c.config.maxEntries := fun hge =>
          hc ⟨hge, hkey⟩
        rw [length_mapSet, if_neg (not_mem_of_mapHas_false hkey)]
        omega
      · have hmem : key ∈ mapKeys c.cache := by
          rw [← mapHas_iff]
          cases hb : mapHas c.cache key
          · exact absurd hb hkey
          · rfl
        rw [length_mapSet, if_pos hmem]
        exact hle

theorem pruneExpired_eq {α : Type} (c : ResourceCache α) (now : Nat) :
    c.pruneExpired now =
      ((c.cache.filter (fun p => decide (now > p.2.expiresAt))).map
        (fun p => p.1)).foldl (fun acc k => acc.delete k) c := rfl

theorem length_cache_pruneExpired_le {α : Type} (c : ResourceCache α)
    (now : Nat) :
    (c.pruneExpired now).cache.length ≤ c.cache.length := by
  rw [pruneExpired_eq, (foldl_delete_spec _ c).1]
  exact List.length_filter_le _ _

theorem config_pruneExpired {α : Type} (c : ResourceCache α) (now : Nat) :
    (c.pruneExpired now).config = c.config := by
  rw [pruneExpired_eq]
  exact (foldl_delete_spec _ c).2.2

theorem config_applyOp {α : Type} (c : ResourceCache α) (op : CacheOp α) :
    (applyOp c op).config = c.config := by
  cases op with
  | get key now => exact config_get c key now
  | set key data now => exact config_set c key data now
  | del key => rfl
  | clear => rfl
  | has key now => exact config_get c key now
  | prune now => exact config_pruneExpired c now

theorem config_runOps {α : Type} (c : ResourceCache α)
    (ops : List (CacheOp α)) : (runOps c ops).config = c.config := by
  induction ops generalizing c with
  | nil => rfl
  | cons op ops ih =>
    rw [runOps, List.foldl_cons, ← runOps, ih, config_applyOp]

theorem length_cache_applyOp_le {α : Type} {c : ResourceCache α} (hwf : c.WF)
    (hpos : 0 < c.config.maxEntries)
    (hle : c.cache.length ≤ c.config.maxEntries) (op : CacheOp α) :
    (applyOp c op).cache.length ≤ c.config.maxEntries := by
  cases op with
  | get key now => exact le_trans (length_cache_get_le c key now) hle
  | set key data now => exact length_cache_set_le hwf hpos hle key data now
  | del key => exact le_trans (length_cache_delete_le c key) hle
  | clear => exact Nat.zero_le _
  | has key now => exact le_trans (length_cache_get_le c key now) hle
  | prune now => exact le_trans (length_cache_pruneExpired_le c now) hle

theorem length_runOps_le {α : Type} {c : ResourceCache α} (hwf : c.WF)
    (hpos : 0 < c.config.maxEntries)
    (hle : c.cache.length ≤ c.config.maxEntries) (ops : List (CacheOp α)) :
    (runOps c ops).cache.length ≤ c.config.maxEntries := by
  induction ops generalizing c with
  | nil => exact hle
  | cons op ops ih =>
    rw [runOps, List.foldl_cons, ← runOps]
    have hcfg := config_applyOp c op
    have h1 := @ih (applyOp c op) (WF_applyOp hwf op)
      (by rw [hcfg]; exact hpos)
      (by rw [hcfg]; exact length_cache_applyOp_le hwf hpos hle op)
    rw [hcfg] at h1
    exact h1

/-- Under well-formedness, a nonempty map forces a nonempty access order. -/
theorem exists_lru {α : Type} {c : ResourceCache α} (hwf : c.WF)
    (hne : c.cache ≠ []) : ∃ lru rest, c.accessOrder = lru :: rest := by
  cases hao : c.accessOrder with
  | cons lru rest => exact ⟨lru, rest, rfl⟩
  | nil =>
    exfalso
    cases hc : c.cache with
    | nil => exact hne hc
    | cons p l =>
      have hp : p.1 ∈ mapKeys c.cache := by
        rw [hc, mapKeys_cons]
        exact List.mem_cons_self _ _
      have := hwf.2.2.2 p.1 hp
      rw [hao] at this
      simp at this


/-! ### Claim theorems: the resource cache -/

/-- Claim C7: calling `pruneExpired` twice in a row, with no intervening
writes and the clock unchanged, leaves the state after the second call
identical to the state after the first: the second call removes nothing. -/
theorem pruneExpired_idempotent {α : Type} (c : ResourceCache α) (now : Nat) :
    (c.pruneExpired now).pruneExpired now = c.pruneExpired now := by
  have h2 : (c.pruneExpired now).cache.filter
      (fun p => decide (now > p.2.expiresAt)) = [] := by
    rw [List.filter_eq_nil_iff]
    intro q hq
    rw [pruneExpired_eq, (foldl_delete_spec _ c).1, List.mem_filter] at hq
    obtain ⟨hqc, hqk⟩ := hq
    intro hexp
    have hmem : q.1 ∈ (c.cache.filter
        (fun p => decide (now > p.2.expiresAt))).map (fun p => p.1) := by
      apply List.mem_map_of_mem
      rw [List.mem_filter]
      exact ⟨hqc, hexp⟩
    have hqk2 : q.1 ∉ (c.cache.filter
        (fun p => decide (now > p.2.expiresAt))).map (fun p => p.1) := by
      simpa using hqk
    exact hqk2 hmem
  rw [pruneExpired_eq (c.pruneExpired now) now, h2]
  rfl

/-- Claim C6 counterexample: with an enabled cache configured with
`maxEntries = 0`, a single `set` makes the size 1, exceeding the configured
maximum — so the bound does not hold for every configured maximum. -/
theorem cache_size_bound_cex :
    (runOps (ResourceCache.init ⟨true, 1, 0⟩ : ResourceCache Nat)
        [CacheOp.set "a" 0 0]).cache.length = 1 ∧
    ¬ ((runOps (ResourceCache.init ⟨true, 1, 0⟩ : ResourceCache Nat)
        [CacheOp.set "a" 0 0]).cache.length ≤
          (⟨true, 1, 0⟩ : CacheConfig).maxEntries) := by
  constructor
  · rfl
  · decide

/-- Claim C6 (amended): for every configuration with a positive
`maxEntries`, after any sequence of public cache operations starting from a
fresh cache the number of stored entries never exceeds `maxEntries`. -/
theorem cache_size_never_exceeds_max {α : Type} (cfg : CacheConfig)
    (hpos : 0 < cfg.maxEntries) (ops : List (CacheOp α)) :
    (runOps (ResourceCache.init cfg) ops).cache.length ≤ cfg.maxEntries :=
  length_runOps_le (WF_init cfg) hpos (Nat.zero_le _) ops

/-- Witness for the amended C6 at a concrete run: three inserts into a
2-entry cache stay within the bound. -/
theorem cache_size_never_exceeds_max_witness :
    (runOps (ResourceCache.init ⟨true, 60, 2⟩ : ResourceCache Nat)
      [CacheOp.set "a" 1 0, CacheOp.set "b" 2 0,
       CacheOp.set "c" 3 0]).cache.length ≤ 2 :=
  cache_size_never_exceeds_max ⟨true, 60, 2⟩ (by decide) _

/-- The access order of a well-formed cache lists exactly the stored keys,
and eviction on a nonempty cache removes a stored entry. -/
theorem WF_lru_props {α : Type} {c : ResourceCache α} (hwf : c.WF) :
    (c.accessOrder.Nodup ∧
      ∀ k, k ∈ c.accessOrder ↔ k ∈ mapKeys c.cache) ∧
    (c.cache ≠ [] →
      ∃ lru, c.accessOrder.head? = some lru ∧ lru ∈ mapKeys c.cache ∧
        (c.evictLRU).cache.length + 1 = c.cache.length) := by
  obtain ⟨h1, h2, h3, h4⟩ := hwf
  refine ⟨⟨h2, fun k => ⟨h3 k, h4 k⟩⟩, ?_⟩
  intro hne
  obtain ⟨lru, rest, hao⟩ := exists_lru ⟨h1, h2, h3, h4⟩ hne
  have hlru : lru ∈ mapKeys c.cache :=
    h3 lru (by rw [hao]; exact List.mem_cons_self _ _)
  refine ⟨lru, by rw [hao]; rfl, hlru, ?_⟩
  rw [evictLRU_of_cons c lru rest hao, cache_delete]
  exact length_mapDelete_of_mem c.cache lru h1 hlru

/-- Claim C9: after any sequence of public operations from a fresh cache,
the internal `accessOrder` list contains exactly the stored keys, each
exactly once; hence LRU eviction triggered on a nonempty cache always
removes a currently stored entry. -/
theorem accessOrder_exactly_stored_keys {α : Type} (cfg : CacheConfig)
    (ops : List (CacheOp α)) :
    ((runOps (ResourceCache.init cfg) ops).accessOrder.Nodup ∧
      ∀ k, k ∈ (runOps (ResourceCache.init cfg) ops).accessOrder ↔
        k ∈ mapKeys (runOps (ResourceCache.init cfg) ops).cache) ∧
    ((runOps (ResourceCache.init cfg) ops).cache ≠ [] →
      ∃ lru,
        (runOps (ResourceCache.init cfg) ops).accessOrder.head? = some lru ∧
        lru ∈ mapKeys (runOps (ResourceCache.init cfg) ops).cache ∧
        ((runOps (ResourceCache.init cfg) ops).evictLRU).cache.length + 1 =
          (runOps (ResourceCache.init cfg) ops).cache.length) :=
  WF_lru_props (WF_runOps (WF_init cfg) ops)

/-- Witness for C9 at a concrete run with a nonempty final cache. -/
theorem accessOrder_exactly_stored_keys_witness :
    ∃ lru,
      (runOps (ResourceCache.init ⟨true, 60, 10⟩ : ResourceCache Nat)
        [CacheOp.set "a" 1 0, CacheOp.set "b" 2 0]).accessOrder.head? =
          some lru ∧
      lru ∈ mapKeys (runOps (ResourceCache.init ⟨true, 60, 10⟩ :
        ResourceCache Nat) [CacheOp.set "a" 1 0, CacheOp.set "b" 2 0]).cache ∧
      ((runOps (ResourceCache.init ⟨true, 60, 10⟩ : ResourceCache Nat)
        [CacheOp.set "a" 1 0, CacheOp.set "b" 2 0]).evictLRU).cache.length + 1 =
        (runOps (ResourceCache.init ⟨true, 60, 10⟩ : ResourceCache Nat)
          [CacheOp.set "a" 1 0, CacheOp.set "b" 2 0]).cache.length :=
  (accessOrder_exactly_stored_keys ⟨true, 60, 10⟩ _).2 (by decide)

/-- Claim C3 counterexample: a cache whose configured capacity is 0 is at
its configured capacity while empty and enabled; a `set` with a new key then
evicts nothing at all (the size grows by one), against "exactly one
existing entry is evicted". -/
theorem set_at_capacity_cex :
    ((ResourceCache.init ⟨true, 1, 0⟩ : ResourceCache Nat).cache.length =
      (⟨true, 1, 0⟩ : CacheConfig).maxEntries) ∧
    mapHas (ResourceCache.init ⟨true, 1, 0⟩ :
      ResourceCache Nat).cache "a" = false ∧
    ((ResourceCache.init ⟨true, 1, 0⟩ : ResourceCache Nat).set
        "a" 7 0).cache.length =
      (ResourceCache.init ⟨true, 1, 0⟩ : ResourceCache Nat).cache.length + 1 :=
  ⟨rfl, rfl, rfl⟩

/-- Claim C3 (amended): when `set` is called with a new key on an enabled,
well-formed cache that is at its positive configured capacity, exactly one
entry is evicted, namely the least-recently-accessed key (the head of the
access order): it disappears from the map, every other stored key survives,
the new key is stored, and the size is back at the maximum. -/
theorem set_at_capacity_evicts_lru {α : Type} {c : ResourceCache α}
    (key : String) (data : α) (now : Nat) (hwf : c.WF)
    (he : c.config.enabled = true)
    (hfull : c.cache.length = c.config.maxEntries)
    (hpos : 0 < c.config.maxEntries)
    (hnew : mapHas c.cache key = false) :
    ∃ lru rest, c.accessOrder = lru :: rest ∧ lru ∈ mapKeys c.cache ∧
      mapHas (c.set key data now).cache lru = false ∧
      mapHas (c.set key data now).cache key = true ∧
      (∀ k ∈ mapKeys c.cache, k ≠ lru →
        k ∈ mapKeys (c.set key data now).cache) ∧
      (c.set key data now).cache.length = c.config.maxEntries := by
  have hne : c.cache ≠ [] := by
    intro h0
    rw [h0, List.length_nil] at hfull
    omega
  obtain ⟨lru, rest, hao⟩ := exists_lru hwf hne
  have hlru : lru ∈ mapKeys c.cache :=
    hwf.2.2.1 lru (by rw [hao]; exact List.mem_cons_self _ _)
  have hcond : c.cache.length ≥ c.config.maxEntries ∧
      mapHas c.cache key = false := ⟨le_of_eq hfull.symm, hnew⟩
  have hcache : (c.set key data now).cache =
      mapSet (c.delete lru).cache key
        ⟨data, now, now + c.config.ttlSeconds * 1000⟩ := by
    rw [set_of_enabled c key data now he, cache_updateAccessOrder,
      if_pos hcond, evictLRU_of_cons c lru rest hao]
  have hkeyne : key ≠ lru := by
    intro h
    exact not_mem_of_mapHas_false hnew (h ▸ hlru)
  have hkeydel : key ∉ mapKeys (c.delete lru).cache := by
    rw [cache_delete, mapKeys_mapDelete]
    intro hmem
    exact not_mem_of_mapHas_false hnew (List.mem_of_mem_filter hmem)
  refine ⟨lru, rest, hao, hlru, ?_, ?_, ?_, ?_⟩
  · rw [hcache, mapHas, mapGet_mapSet_ne _ _ _ _ (Ne.symm hkeyne),
      cache_delete, mapGet_mapDelete_self]
    rfl
  · rw [hcache, mapHas, mapGet_mapSet_self]
    rfl
  · intro k hk hkne
    rw [hcache, mem_mapKeys_mapSet]
    left
    rw [cache_delete, mapKeys_mapDelete, List.mem_filter]
    exact ⟨hk, by simpa using hkne⟩
  · rw [hcache, length_mapSet, if_neg hkeydel, cache_delete]
    have hdel := length_mapDelete_of_mem c.cache lru hwf.1 hlru
    omega


/-- Witness for the amended C3 at a concrete full cache. -/
theorem set_at_capacity_evicts_lru_witness :
    ∃ lru rest, c3w.accessOrder = lru :: rest ∧ lru ∈ mapKeys c3w.cache ∧
      mapHas (c3w.set "c" 3 0).cache lru = false ∧
      mapHas (c3w.set "c" 3 0).cache "c" = true ∧
      (∀ k ∈ mapKeys c3w.cache, k ≠ lru →
        k ∈ mapKeys (c3w.set "c" 3 0).cache) ∧
      (c3w.set "c" 3 0).cache.length = c3w.config.maxEntries :=
  set_at_capacity_evicts_lru "c" 3 0
    ⟨by decide, by decide, by decide, by decide⟩ rfl rfl (by decide) rfl


/-- Claim C4 counterexample: at `now = expiresAt` exactly, `get` returns
the stored value although `now < expiresAt` is false — the code expires an
entry only when `now > expiresAt`. -/
theorem get_at_expiry_cex :
    mapGet c4cex.cache "k" = some ⟨7, 0, 100⟩ ∧
    (c4cex.get "k" 100).1 = some 7 ∧ ¬ (100 < 100) :=
  ⟨rfl, rfl, by decide⟩

/-- Claim C4 (amended): for a key stored in an enabled cache, `get` returns
the stored value exactly when `now ≤ expiresAt`; when it does, the key is
moved to the most-recently-used (last) position; when `expiresAt < now`,
the stale entry is deleted and a miss is returned. -/
theorem get_returns_iff_unexpired {α : Type} {c : ResourceCache α}
    {key : String} {now : Nat} {entry : CacheEntry α}
    (he : c.config.enabled = true) (hm : mapGet c.cache key = some entry) :
    (((c.get key now).1).isSome = true ↔ now ≤ entry.expiresAt) ∧
    (now ≤ entry.expiresAt →
      c.get key now = (some entry.data, c.updateAccessOrder key) ∧
      ((c.get key now).2).accessOrder.getLast? = some key) ∧
    (entry.expiresAt < now →
      c.get key now = (none, c.delete key) ∧
      mapHas ((c.get key now).2).cache key = false) := by
  by_cases hx : now > entry.expiresAt
  · rw [get_of_expired c key now entry he hm hx]
    refine ⟨?_, ?_, ?_⟩
    · simp only [Option.isSome_none]
      constructor
      · intro h
        cases h
      · intro h
        omega
    · intro hle
      omega
    · intro _
      refine ⟨rfl, ?_⟩
      show mapHas (c.delete key).cache key = false
      rw [cache_delete, mapHas, mapGet_mapDelete_self]
      rfl
  · rw [get_of_fresh c key now entry he hm hx]
    refine ⟨?_, ?_, ?_⟩
    · simp only [Option.isSome_some]
      constructor
      · intro _
        omega
      · intro _
        trivial
    · intro _
      refine ⟨rfl, ?_⟩
      show (c.updateAccessOrder key).accessOrder.getLast? = some key
      rw [accessOrder_updateAccessOrder]
      exact List.getLast?_concat _
    · intro hlt
      omega


/-- Witness for the amended C4: a fresh read at time 50 of an entry
expiring at 100 hits and bumps the key to most-recently-used. -/
theorem get_returns_iff_unexpired_witness :
    c4w.get "k" 50 = (some 7, c4w.updateAccessOrder "k") ∧
    ((c4w.get "k" 50).2).accessOrder.getLast? = some "k" :=
  (@get_returns_iff_unexpired Nat c4w "k" 50 ⟨7, 0, 100⟩ rfl rfl).2.1
    (by decide)



/-- Claim C10: `has(key)` returns true exactly when `get(key)` returns a
value and performs the same state transition as `get` (it is literally
`get(key) !== null`): a true `has` moves the key to the most-recently-used
position, a `has` on an expired entry deletes it, and there are states on
which `has` mutates the cache, so it is not a pure observer. -/
theorem has_is_get {α : Type} (c : ResourceCache α) (key : String)
    (now : Nat) :
    c.has key now = (((c.get key now).1).isSome, (c.get key now).2) ∧
    ((c.has key now).1 = true →
      ((c.has key now).2).accessOrder.getLast? = some key) ∧
    (∀ entry : CacheEntry α, c.config.enabled = true →
      mapGet c.cache key = some entry → now > entry.expiresAt →
      mapHas ((c.has key now).2).cache key = false) ∧
    (∃ (c0 : ResourceCache Nat) (k : String) (t : Nat),
      ((c0.has k t).2) ≠ c0) := by
  refine ⟨rfl, ?_, ?_, ?_⟩
  · intro htrue
    replace htrue : ((c.get key now).1).isSome = true := htrue
    by_cases he : c.config.enabled = false
    · rw [get_of_disabled c key now he] at htrue
      simp at htrue
    · cases hm : mapGet c.cache key with
      | none =>
        rw [get_of_not_mem c key now hm] at htrue
        simp at htrue
      | some entry =>
        by_cases hx : now > entry.expiresAt
        · rw [get_of_expired c key now entry (by simpa using he) hm hx]
            at htrue
          simp at htrue
        · show ((c.get key now).2).accessOrder.getLast? = some key
          rw [get_of_fresh c key now entry (by simpa using he) hm hx]
          show (c.updateAccessOrder key).accessOrder.getLast? = some key
          rw [accessOrder_updateAccessOrder]
          exact List.getLast?_concat _
  · intro entry he hm hx
    show mapHas ((c.get key now).2).cache key = false
    rw [get_of_expired c key now entry he hm hx]
    show mapHas (c.delete key).cache key = false
    rw [cache_delete, mapHas, mapGet_mapDelete_self]
    rfl
  · exact ⟨c10stale, "s", 5, by decide⟩

/-- Witness for C10: a true `has` at a concrete state bumps the key. -/
theorem has_is_get_witness :
    ((c10w.has "k" 5).2).accessOrder.getLast? = some "k" :=
  (has_is_get c10w "k" 5).2.1 (by decide)


/-! ### Claim theorems: the resource manager -/

theorem findResourceForUri_cache_irrelevant (m : ResourceManager)
    (x : ResourceCache ResourceContent) (uri : String) :
    ResourceManager.findResourceForUri { m with cache := x } uri =
      m.findResourceForUri uri := rfl

theorem listResources_cache_irrelevant (m : ResourceManager)
    (x : ResourceCache ResourceContent) :
    ResourceManager.listResources { m with cache := x } =
      m.listResources := rfl

theorem readResource_hit {m : ResourceManager} {uri : String} {now : Nat}
    {v : ResourceContent} (h : (m.cache.get uri now).1 = some v) :
    m.readResource uri now =
      ⟨.ok v, { m with cache := (m.cache.get uri now).2 }, 0⟩ := by
  simp only [ResourceManager.readResource]
  rw [h]

theorem readResource_miss_found {m : ResourceManager} {uri : String}
    {now : Nat} {r : BaseResource} (h : (m.cache.get uri now).1 = none)
    (hf : m.findResourceForUri uri = some r) :
    m.readResource uri now =
      ⟨.ok (r.read uri),
       { m with cache := ((m.cache.get uri now).2).set uri (r.read uri) now },
       1⟩ := by
  simp only [ResourceManager.readResource]
  rw [h, findResourceForUri_cache_irrelevant, hf]

theorem readResource_miss_none {m : ResourceManager} {uri : String}
    {now : Nat} (h : (m.cache.get uri now).1 = none)
    (hf : m.findResourceForUri uri = none) :
    m.readResource uri now =
      ⟨.error (.noHandler uri m.listResources),
       { m with cache := (m.cache.get uri now).2 }, 0⟩ := by
  simp only [ResourceManager.readResource]
  rw [h, findResourceForUri_cache_irrelevant, hf,
    listResources_cache_irrelevant]

/-- After an enabled `set`, the key is stored with the TTL-derived expiry. -/
theorem mapGet_cache_set_self {α : Type} (c : ResourceCache α) (key : String)
    (data : α) (now : Nat) (he : c.config.enabled = true) :
    mapGet (c.set key data now).cache key =
      some ⟨data, now, now + c.config.ttlSeconds * 1000⟩ := by
  rw [set_of_enabled c key data now he, cache_updateAccessOrder]
  by_cases hc : c.cache.length ≥ c.config.maxEntries ∧
      mapHas c.cache key = false
  · rw [if_pos hc]
    exact mapGet_mapSet_self _ _ _
  · rw [if_neg hc]
    exact mapGet_mapSet_self _ _ _

/-- Claim C5: `readResource` is cache-first over the exact request URI: a
hit returns the cached content with no producer invocation; a miss invokes
the first registered producer whose predicate matches, stores the result
and returns it, so two reads of the same URI within the TTL window invoke
the producer exactly once; and when no producer matches, it fails with the
no-handler error listing every registered URI template. -/
theorem readResource_cache_first (m : ResourceManager) (uri : String)
    (r : BaseResource) (t1 t2 : Nat) :
    (∀ v, (m.cache.get uri t1).1 = some v →
      (m.readResource uri t1).result = .ok v ∧
      (m.readResource uri t1).producerCalls = 0) ∧
    ((m.cache.get uri t1).1 = none → m.findResourceForUri uri = some r →
      (m.readResource uri t1).result = .ok (r.read uri) ∧
      (m.readResource uri t1).producerCalls = 1) ∧
    (m.cache.config.enabled = true → mapGet m.cache.cache uri = none →
      m.findResourceForUri uri = some r →
      t2 ≤ t1 + m.cache.config.ttlSeconds * 1000 →
      mapGet ((m.readResource uri t1).manager).cache.cache uri =
        some ⟨r.read uri, t1, t1 + m.cache.config.ttlSeconds * 1000⟩ ∧
      (m.readResource uri t1).producerCalls +
        (((m.readResource uri t1).manager).readResource uri t2).producerCalls
          = 1 ∧
      (((m.readResource uri t1).manager).readResource uri t2).result =
        .ok (r.read uri)) ∧
    ((m.cache.get uri t1).1 = none → m.findResourceForUri uri = none →
      (m.readResource uri t1).result =
        .error (.noHandler uri m.listResources)) := by
  refine ⟨?_, ?_, ?_, ?_⟩
  · intro v h
    rw [readResource_hit h]
    exact ⟨rfl, rfl⟩
  · intro h hf
    rw [readResource_miss_found h hf]
    exact ⟨rfl, rfl⟩
  · intro he hmiss hf httl
    have hget1 : m.cache.get uri t1 = (none, m.cache) :=
      get_of_not_mem m.cache uri t1 hmiss
    have h1 : m.readResource uri t1 =
        ⟨.ok (r.read uri),
         { m with cache := ((m.cache.get uri t1).2).set uri (r.read uri) t1 },
         1⟩ :=
      readResource_miss_found (by rw [hget1]) hf
    have hmgr : (m.readResource uri t1).manager =
        { m with cache := m.cache.set uri (r.read uri) t1 } := by
      rw [h1, hget1]
    have hold : mapGet ((m.readResource uri t1).manager).cache.cache uri =
        some ⟨r.read uri, t1, t1 + m.cache.config.ttlSeconds * 1000⟩ := by
      rw [hmgr]
      exact mapGet_cache_set_self m.cache uri (r.read uri) t1 he
    refine ⟨hold, ?_, ?_⟩
    · have hcalls1 : (m.readResource uri t1).producerCalls = 1 := by
        rw [h1]
      have hget2 : (((m.readResource uri t1).manager).cache.get uri t2).1 =
          some (r.read uri) := by
        rw [hmgr]
        have hcfg : (m.cache.set uri (r.read uri) t1).config = m.cache.config :=
          config_set m.cache uri (r.read uri) t1
        have hfresh := get_of_fresh (m.cache.set uri (r.read uri) t1) uri t2
          ⟨r.read uri, t1, t1 + m.cache.config.ttlSeconds * 1000⟩
          (by rw [hcfg]; exact he)
          (by rw [hmgr] at hold; exact hold)
          (by
            show ¬ t2 > t1 + m.cache.config.ttlSeconds * 1000
            omega)
        rw [hfresh]
      rw [hcalls1, readResource_hit hget2]
      rfl
    · have hget2 : (((m.readResource uri t1).manager).cache.get uri t2).1 =
          some (r.read uri) := by
        rw [hmgr]
        have hcfg : (m.cache.set uri (r.read uri) t1).config = m.cache.config :=
          config_set m.cache uri (r.read uri) t1
        have hfresh := get_of_fresh (m.cache.set uri (r.read uri) t1) uri t2
          ⟨r.read uri, t1, t1 + m.cache.config.ttlSeconds * 1000⟩
          (by rw [hcfg]; exact he)
          (by rw [hmgr] at hold; exact hold)
          (by
            show ¬ t2 > t1 + m.cache.config.ttlSeconds * 1000
            omega)
        rw [hfresh]
      rw [readResource_hit hget2]
  · intro h hf
    rw [readResource_miss_none h hf]



/-- Witness for C5: two reads of the same URI within the TTL window on the
demo manager perform exactly one producer invocation. -/
theorem readResource_cache_first_witness :
    mapGet ((demoManager.readResource "waha://chats/overview" 0).manager).cache.cache
        "waha://chats/overview" =
      some ⟨demoResource.read "waha://chats/overview", 0,
        0 + demoManager.cache.config.ttlSeconds * 1000⟩ ∧
    (demoManager.readResource "waha://chats/overview" 0).producerCalls +
      (((demoManager.readResource "waha://chats/overview" 0).manager).readResource
        "waha://chats/overview" 1000).producerCalls = 1 ∧
    (((demoManager.readResource "waha://chats/overview" 0).manager).readResource
        "waha://chats/overview" 1000).result =
      .ok (demoResource.read "waha://chats/overview") :=
  (readResource_cache_first demoManager "waha://chats/overview" demoResource
    0 1000).2.2.1 rfl rfl rfl (by decide)


/-! ### Claim theorems: the webhook server -/

theorem xor_ne_of_ne_zero {x k : Nat} (hk : k ≠ 0) : x ^^^ k ≠ x := by
  intro h
  have h2 : x ^^^ (x ^^^ k) = x ^^^ x := by rw [h]
  rw [← Nat.xor_assoc, Nat.xor_self, Nat.zero_xor] at h2
  exact hk h2

/-- A single-bit mutation inside the signature changes it. -/
theorem flipBit_ne (l : List Nat) (i b : Nat) (hi : i < l.length) :
    flipBit l i b ≠ l := by
  intro h
  have hq : (flipBit l i b)[i]? = l[i]? := by rw [h]
  rw [flipBit, List.getElem?_set_self hi, List.getElem?_eq_getElem hi] at hq
  have hD : l.getD i 0 = l[i] := by
    rw [List.getD_eq_getElem?_getD, List.getElem?_eq_getElem hi]
    rfl
  rw [hD] at hq
  have hsh : (1 : Nat) <<< b ≠ 0 := by
    rw [Nat.shiftLeft_eq, Nat.one_mul]
    exact (Nat.two_pow_pos b).ne'
  have h2 : l[i] ^^^ (1 <<< b) = l[i] := Option.some.inj hq
  exact xor_ne_of_ne_zero hsh h2

/-- `validateHmac` with a configured (nonempty) key accepts a present
signature exactly when it equals the expected digest (assuming, as for any
hex SHA-256 digest, that the expected digest is nonempty). -/
theorem validateHmac_iff (hmacHex : List Nat → List Nat → List Nat)
    (key body sig : List Nat) (hkey : key ≠ [])
    (hdig : hmacHex key body ≠ []) :
    (validateHmac (some key) hmacHex body (some sig) = true ↔
      sig = hmacHex key body) := by
  rw [validateHmac]
  by_cases hsig : sig = []
  · rw [if_pos (Or.inr hsig)]
    constructor
    · intro h
      cases h
    · intro h
      exact absurd (h ▸ hsig) hdig
  · rw [if_neg (fun h => h.elim hkey hsig)]
    by_cases hlen : (hmacHex key body).length ≠ sig.length
    · rw [if_pos hlen]
      constructor
      · intro h
        cases h
      · intro h
        exact absurd (congrArg List.length h).symm hlen
    · rw [if_neg hlen, decide_eq_true_eq]
      exact eq_comm

theorem webhookPost_configured (hmacHex : List Nat → List Nat → List Nat)
    (rawBody : List Nat) (sigHeader : Option (List Nat))
    (body : Option WAHAWebhookPayload)
    (handlers : List (String × List WebhookEventHandler))
    (key : List Nat) (hkey : key ≠ []) :
    webhookPost (some key) hmacHex rawBody sigHeader body handlers =
      if validateHmac (some key) hmacHex rawBody sigHeader then
        handleValidatedBody body handlers
      else ⟨.unauthorized, false, []⟩ := by
  simp only [webhookPost]
  rw [if_pos hkey]

theorem handleValidatedBody_valid (p : WAHAWebhookPayload)
    (handlers : List (String × List WebhookEventHandler))
    (hev : p.event ≠ "") :
    handleValidatedBody (some p) handlers =
      ⟨.ok p.event, true, dispatchEvent handlers p⟩ := by
  simp only [handleValidatedBody]
  rw [if_neg hev]

/-- Claim C1: with a configured secret, the webhook route accepts (and then
dispatches) a request whose signature header equals the expected digest of
the raw body, and rejects with 401 — without dispatching — a request whose
header is absent or whose signature differs in length or content from the
expected digest, in particular every single-bit mutation of a valid
signature.  The digest function (Node crypto HMAC-SHA256, hex) is abstract:
the statement holds for every digest function whose output is nonempty. -/
theorem webhook_hmac_correctness (hmacHex : List Nat → List Nat → List Nat)
    (key body : List Nat) (p : WAHAWebhookPayload)
    (handlers : List (String × List WebhookEventHandler))
    (hkey : key ≠ []) (hdig : hmacHex key body ≠ []) (hev : p.event ≠ "") :
    ((webhookPost (some key) hmacHex body (some (hmacHex key body)) (some p)
        handlers).response = .ok p.event ∧
      (webhookPost (some key) hmacHex body (some (hmacHex key body)) (some p)
        handlers).dispatched = true) ∧
    webhookPost (some key) hmacHex body none (some p) handlers =
      ⟨.unauthorized, false, []⟩ ∧
    (∀ sig, sig ≠ hmacHex key body →
      webhookPost (some key) hmacHex body (some sig) (some p) handlers =
        ⟨.unauthorized, false, []⟩) ∧
    (∀ i b, i < (hmacHex key body).length →
      webhookPost (some key) hmacHex body
        (some (flipBit (hmacHex key body) i b)) (some p) handlers =
        ⟨.unauthorized, false, []⟩) := by
  have hwrong : ∀ sig, sig ≠ hmacHex key body →
      webhookPost (some key) hmacHex body (some sig) (some p) handlers =
        ⟨.unauthorized, false, []⟩ := by
    intro sig hsig
    rw [webhookPost_configured hmacHex body (some sig) (some p) handlers key
      hkey]
    rw [if_neg (fun h =>
      hsig ((validateHmac_iff hmacHex key body sig hkey hdig).mp h))]
  refine ⟨?_, ?_, hwrong, ?_⟩
  · rw [webhookPost_configured hmacHex body (some (hmacHex key body)) (some p)
      handlers key hkey,
      if_pos ((validateHmac_iff hmacHex key body (hmacHex key body) hkey
        hdig).mpr rfl),
      handleValidatedBody_valid p handlers hev]
    exact ⟨rfl, rfl⟩
  · rw [webhookPost_configured hmacHex body none (some p) handlers key hkey]
    rfl
  · intro i b hi
    exact hwrong (flipBit (hmacHex key body) i b)
      (flipBit_ne (hmacHex key body) i b hi)

/-- Witness for C1: a concrete digest function, secret and body; the valid
signature is accepted and dispatched. -/
theorem webhook_hmac_correctness_witness :
    (webhookPost (some [1]) (fun k b => k ++ b) [2, 3]
      (some ((fun (k b : List Nat) => k ++ b) [1] [2, 3]))
      (some ⟨"message", "default"⟩) []).response = .ok "message" ∧
    (webhookPost (some [1]) (fun k b => k ++ b) [2, 3]
      (some ((fun (k b : List Nat) => k ++ b) [1] [2, 3]))
      (some ⟨"message", "default"⟩) []).dispatched = true :=
  (webhook_hmac_correctness (fun k b => k ++ b) [1] [2, 3]
    ⟨"message", "default"⟩ [] (by decide) (by decide) (by decide)).1

theorem runHandlerCaught_id (h : WebhookEventHandler)
    (p : WAHAWebhookPayload) : (runHandlerCaught h p).handlerId = h.id := by
  cases hr : h.run p <;> simp [runHandlerCaught, hr]

theorem length_filter_add_length_filter_not {γ : Type} (l : List γ)
    (p : γ → Bool) :
    (l.filter p).length + (l.filter (fun a => !p a)).length = l.length := by
  induction l with
  | nil => rfl
  | cons a l ih =>
    cases ha : p a <;> simp [List.filter_cons, ha] <;> omega

theorem length_filter_map_eq {γ δ : Type} (f : γ → δ) (l : List γ)
    (q : δ → Bool) :
    ((l.map f).filter q).length = (l.filter (fun a => q (f a))).length := by
  induction l with
  | nil => rfl
  | cons a l ih =>
    cases ha : q (f a) <;> simp [List.filter_cons, ha, ih]

theorem dispatchEvent_of_ne_nil
    (eventHandlers : List (String × List WebhookEventHandler))
    (payload : WAHAWebhookPayload)
    (h : ((mapGet eventHandlers payload.event).getD []) ++
      ((mapGet eventHandlers "*").getD []) ≠ []) :
    dispatchEvent eventHandlers payload =
      (((mapGet eventHandlers payload.event).getD []) ++
        ((mapGet eventHandlers "*").getD [])).map
          (fun h => runHandlerCaught h payload) := by
  simp only [dispatchEvent]
  rw [if_neg (by simpa [List.isEmpty_iff] using h)]

/-- Claim C2: for every registered handler map and event, `dispatchEvent`
invokes every matching handler (event-specific then wildcard) exactly once,
catches each failure per-handler so that one handler throwing does not
prevent the others from settling, produces exactly N−k successes when k of
the N handlers throw, and the route still responds success after the
dispatch completes. -/
theorem dispatch_isolates_failures
    (eventHandlers : List (String × List WebhookEventHandler))
    (payload : WAHAWebhookPayload) (k : Nat)
    (hk : k = ((((mapGet eventHandlers payload.event).getD []) ++
        ((mapGet eventHandlers "*").getD [])).filter
          (fun h => !(runHandlerCaught h payload).ok)).length)
    (hkN : k < (((mapGet eventHandlers payload.event).getD []) ++
        ((mapGet eventHandlers "*").getD [])).length) :
    ((dispatchEvent eventHandlers payload).map (fun o => o.handlerId) =
      (((mapGet eventHandlers payload.event).getD []) ++
        ((mapGet eventHandlers "*").getD [])).map (fun h => h.id)) ∧
    ((dispatchEvent eventHandlers payload).length =
      (((mapGet eventHandlers payload.event).getD []) ++
        ((mapGet eventHandlers "*").getD [])).length) ∧
    (((dispatchEvent eventHandlers payload).filter (fun o => o.ok)).length =
      (((mapGet eventHandlers payload.event).getD []) ++
        ((mapGet eventHandlers "*").getD [])).length - k) ∧
    (∀ (hmacHex : List Nat → List Nat → List Nat) (rawBody : List Nat),
      payload.event ≠ "" →
      webhookPost none hmacHex rawBody none (some payload) eventHandlers =
        ⟨.ok payload.event, true, dispatchEvent eventHandlers payload⟩) := by
  set allH := (((mapGet eventHandlers payload.event).getD []) ++
    ((mapGet eventHandlers "*").getD [])) with hallH
  have hne : allH ≠ [] := by
    intro h0
    rw [h0] at hkN
    simp at hkN
  have hdisp := dispatchEvent_of_ne_nil eventHandlers payload hne
  refine ⟨?_, ?_, ?_, ?_⟩
  · rw [hdisp, List.map_map]
    apply List.map_congr_left
    intro h _
    exact runHandlerCaught_id h payload
  · rw [hdisp, List.length_map]
  · rw [hdisp, length_filter_map_eq, hk, ← hallH]
    have hsplit := length_filter_add_length_filter_not allH
      (fun a => (runHandlerCaught a payload).ok)
    omega
  · intro hmacHex rawBody hev
    simp only [webhookPost]
    exact handleValidatedBody_valid payload eventHandlers hev








/-- Witness for C2 with N = 2 handlers of which k = 1 throws: both are
invoked in order and exactly one success is produced. -/
theorem dispatch_isolates_failures_witness :
    ((dispatchEvent demoHandlers demoPayload).map (fun o => o.handlerId) =
      (((mapGet demoHandlers demoPayload.event).getD []) ++
        ((mapGet demoHandlers "*").getD [])).map (fun h => h.id)) ∧
    (((dispatchEvent demoHandlers demoPayload).filter
        (fun o => o.ok)).length =
      (((mapGet demoHandlers demoPayload.event).getD []) ++
        ((mapGet demoHandlers "*").getD [])).length - 1) :=
  ⟨(dispatch_isolates_failures demoHandlers demoPayload 1 rfl
      (by decide)).1,
   (dispatch_isolates_failures demoHandlers demoPayload 1 rfl
      (by decide)).2.2.1⟩

/-! ### Claim theorems: the ngrok tunnel manager -/


/-- Claim C8 counterexample: `start()` on an already-active manager is not
a no-op — it consumes a fresh tunnel from the provider, returns the NEW
URL, and replaces both the retained listener and the public URL. -/
theorem ngrok_start_not_idempotent :
    ngrokActive.isActive = true ∧
    (ngrokActive.start (.ok ⟨2, some "https://two.example"⟩)).1 =
      .ok "https://two.example" ∧
    (ngrokActive.start (.ok ⟨2, some "https://two.example"⟩)).2.listener ≠
      ngrokActive.listener ∧
    (ngrokActive.start (.ok ⟨2, some "https://two.example"⟩)).2.publicUrl ≠
      ngrokActive.publicUrl := by
  refine ⟨rfl, rfl, ?_, ?_⟩ <;> decide

/-- Claim C8 (amended): `start()` performs no already-active check at all:
on any state, active included, a successful provider forward with a
non-empty URL acquires the new tunnel and replaces the retained listener
and public URL with the new ones, returning the new URL. -/
theorem ngrok_start_replaces_tunnel (m : NgrokManager)
    (listener : NgrokListener) (url : String) (hact : m.isActive = true)
    (hurl : listener.url = some url) (hne : url ≠ "") :
    m.start (.ok listener) =
      (.ok url,
       { m with listener := some listener, publicUrl := some url }) := by
  simp only [NgrokManager.start, hurl]
  rw [if_neg hne]

/-- Witness for the amended C8 at the concrete active state. -/
theorem ngrok_start_replaces_tunnel_witness :
    ngrokActive.start (.ok ⟨2, some "https://two.example"⟩) =
      (.ok "https://two.example",
       { ngrokActive with
         listener := some ⟨2, some "https://two.example"⟩
         publicUrl := some "https://two.example" }) :=
  ngrok_start_replaces_tunnel ngrokActive ⟨2, some "https://two.example"⟩
    "https://two.example" (by decide) rfl (by decide)

end Waha
